import Mathlib

/-!
Verification of the network import/synthesis core of aequilibrae
(aequilibrae/project/network/network.py) against its specification.

The Python source is shallowly embedded below: real-valued coordinate and
attribute arithmetic is modelled over ℚ, integer identifiers over ℤ,
dataframe tables as lists of records, and fallible operations as
Except-valued functions.
-/

/- ## BoundingBoxTiler: the tiling step of Network.create_from_osm
   (network.py lines 188-212).

   The bounding-box area itself is produced by two calls to haversine
   (aequilibrae/project/network/haversine.py, outside the provided sources);
   following the spec, the area approximation (great-circle height times
   great-circle width) is taken as an input parameter, exactly as the claims
   quantify over it. -/

/-- Value of math.ceil(math.sqrt(n)) for a natural number n,
as used at network.py line 201. -/
def ceilSqrt (n : ℕ) : ℕ :=
  if Nat.sqrt n * Nat.sqrt n = n then Nat.sqrt n else Nat.sqrt n + 1

/-- Value of math.ceil(p / h) for natural numbers, as used at
network.py line 202. -/
def ceilDivNat (p h : ℕ) : ℕ := (p + h - 1) / h

/-- Embedding of parts = math.ceil(area / max_query_area_size)
(network.py line 200). -/
def partsOf (area maxq : ℚ) : ℕ := (Int.ceil (area / maxq)).toNat

/-- Embedding of horizontal = math.ceil(math.sqrt(parts)) (network.py line 201). -/
def horizontalOf (area maxq : ℚ) : ℕ := ceilSqrt (partsOf area maxq)

/-- Embedding of vertical = math.ceil(parts / horizontal) (network.py line 202). -/
def verticalOf (area maxq : ℚ) : ℕ :=
  ceilDivNat (partsOf area maxq) (horizontalOf area maxq)

/-- Embedding of the nested tile loop of network.py lines 203-212: the
longitude extent is cut into h cells of width dx = (east - west) / h, the
latitude extent into v cells of height dy = (north - south) / v, and every
cell is clamped to the valid coordinate range.  Tiles are emitted in the
source order: outer loop over i (longitude), inner loop over j (latitude),
each tile being (xmin, ymin, xmax, ymax). -/
def mkTiles (west south east north : ℚ) (h v : ℕ) : List (ℚ × ℚ × ℚ × ℚ) :=
  (List.range h).flatMap (fun (i : ℕ) =>
    (List.range v).map (fun (j : ℕ) =>
      (max (-180) (west + (i : ℚ) * ((east - west) / (h : ℚ))),
       max (-90) (south + (j : ℚ) * ((north - south) / (v : ℚ))),
       min 180 (west + ((i : ℚ) + 1) * ((east - west) / (h : ℚ))),
       min 90 (south + ((j : ℚ) + 1) * ((north - south) / (v : ℚ))))))

/-- Embedding of the tiling step of Network.create_from_osm (network.py
lines 196-212): a single tile equal to the input rectangle when
area < max_query_area_size, otherwise the horizontal-by-vertical grid. -/
def create_from_osm_tiles (west south east north area maxq : ℚ) :
    List (ℚ × ℚ × ℚ × ℚ) :=
  if area < maxq then [(west, south, east, north)]
  else mkTiles west south east north (horizontalOf area maxq) (verticalOf area maxq)

/- ## Place-name resolution in Network.create_from_osm
   (network.py lines 176-186). -/

/-- Observable outcome of the place-name branch of create_from_osm: the call
either raises an exception, or warns and returns early, or proceeds to the
download with a bounding box. -/
inductive OsmOutcome where
  | raised : String → OsmOutcome
  | warnedReturn : String → OsmOutcome
  | proceeded : ℚ × ℚ × ℚ × ℚ → OsmOutcome
deriving DecidableEq

/-- Embedding of the Python tuple unpacking
west, south, east, north = bbox (network.py line 178): unpacking None
raises a TypeError. -/
def unpackBbox : Option (ℚ × ℚ × ℚ × ℚ) → Except String (ℚ × ℚ × ℚ × ℚ)
  | none => Except.error "TypeError: cannot unpack non-iterable NoneType object"
  | some b => Except.ok b

/-- Embedding of network.py lines 177-186, in source order: placegetter
returns the bounding box (modelled as the input, since the geocoding
service is external), line 178 unpacks it, and only then line 179 tests it
against None to warn and return early. -/
def create_from_osm_place (place_name : String)
    (resolved : Option (ℚ × ℚ × ℚ × ℚ)) : OsmOutcome :=
  match unpackBbox resolved with
  | Except.error msg => OsmOutcome.raised msg
  | Except.ok b =>
    if resolved = none then
      OsmOutcome.warnedReturn
        ("We could not find a reference for place name " ++ place_name)
    else
      OsmOutcome.proceeded b

/- ## GMNSReconciler: Network.create_from_gmns (network.py lines 223-553). -/

/-- Raw GMNS link row: identifier, ordered node pair, the direction value
carried by the source table (1 for every row when the direction column is
absent, network.py lines 317-318), and the per-direction attribute sources. -/
structure RawLink where
  link_id : ℤ
  from_node : ℤ
  to_node : ℤ
  dir : ℤ
  speed : ℚ
  capacity : ℚ
  lanes : ℚ
deriving DecidableEq

/-- Predicate selecting the rows with from-node a and to-node b. -/
def pairPred (a b : ℤ) (r : RawLink) : Bool :=
  decide (r.from_node = a ∧ r.to_node = b)

/-- Number of raw rows carrying the ordered pair (a, b); this is the group
size computed by the groupby/count of network.py lines 299-300. -/
def countPair (l : List RawLink) (a b : ℤ) : ℕ :=
  (l.filter (pairPred a b)).length

/-- Predicate selecting the rows with the same ordered node pair as r. -/
def samePair (r s : RawLink) : Bool :=
  decide (s.from_node = r.from_node ∧ s.to_node = r.to_node)

/-- Embedding of pandas drop_duplicates(subset=[from, to], keep='last')
(network.py lines 305 and 307): a row is kept exactly when no later row has
the same ordered node pair. -/
def keepLast : List RawLink → List RawLink
  | [] => []
  | r :: rest => if rest.any (samePair r) then keepLast rest else r :: keepLast rest

/-- Comparison key of sort_values('link_id') (network.py lines 305 and 307). -/
def linkIdLe (r s : RawLink) : Prop := r.link_id ≤ s.link_id

instance : DecidableRel linkIdLe := fun r s => Int.decLe r.link_id s.link_id

instance : IsTotal RawLink linkIdLe := ⟨fun r s => Int.le_total r.link_id s.link_id⟩

instance : IsTrans RawLink linkIdLe := ⟨fun _ _ _ h1 h2 => le_trans h1 h2⟩

/-- Embedding of sort_values('link_id'). -/
def sortByLinkId (l : List RawLink) : List RawLink := List.insertionSort linkIdLe l

/-- Rows whose ordered pair occurs at least twice in the raw table, the
membership test of network.py line 304. -/
def twoWayPred (l : List RawLink) (r : RawLink) : Bool :=
  decide (2 ≤ countPair l r.from_node r.to_node)

/-- Embedding of the guard df_two_way_count.shape[0] > 0 (network.py line 301). -/
def hasTwoWay (l : List RawLink) : Bool := l.any (twoWayPred l)

/-- Embedding of two_way_links (network.py lines 304-305): the link ids kept
after sorting the two-way rows by link_id and dropping duplicate pairs,
keeping the last. -/
def twoWayLinks (l : List RawLink) : List ℤ :=
  (keepLast (sortByLinkId (l.filter (twoWayPred l)))).map (fun r => r.link_id)

/-- Embedding of network.py lines 299-324: when some pair occurs twice the
whole table is sorted by link_id and deduplicated by pair keeping the last
row, and each surviving row whose link_id is in two_way_links has its
direction forced to 0; otherwise the table and the direction values are
left untouched.  Each surviving row is paired with its direction value. -/
def gmnsCanonical (l : List RawLink) : List (RawLink × ℤ) :=
  if hasTwoWay l then
    (keepLast (sortByLinkId l)).map
      (fun r => (r, if r.link_id ∈ twoWayLinks l then (0 : ℤ) else r.dir))
  else
    l.map (fun r => (r, r.dir))

/-- Embedding of the direction fallback of network.py lines 328-330: any
value outside [1, 0, -1] becomes 1. -/
def normDir (d : ℤ) : ℤ := if d = 1 ∨ d = 0 ∨ d = -1 then d else 1

/-- Canonical rows with normalized directions (state of the direction list
after network.py line 330). -/
def gmnsFinal (l : List RawLink) : List (RawLink × ℤ) :=
  (gmnsCanonical l).map (fun e => (e.1, normDir e.2))

/-- Canonical entries carrying the ordered pair (a, b). -/
def pairEntries (es : List (RawLink × ℤ)) (a b : ℤ) : List (RawLink × ℤ) :=
  es.filter (fun e => pairPred a b e.1)

/-- Embedding of the per-direction attribute split of network.py lines
334-367 for one source column (speed, capacity or lanes): when the column
exists, direction 1 fills the _ab slot, direction -1 fills the _ba slot and
any other direction fills both; when the column is absent both slots keep
their initial empty value (modelled as none). -/
def fieldSlots (hasField : Bool) (value : RawLink → ℚ)
    (entries : List (RawLink × ℤ)) : List (Option ℚ × Option ℚ) :=
  entries.map (fun e =>
    if hasField then
      if e.2 = 1 then (some (value e.1), none)
      else if e.2 = -1 then (none, some (value e.1))
      else (some (value e.1), some (value e.1))
    else (none, none))

/-- Embedding of the mode-inference branch of network.py lines 457-469: the
if/elif chain over the configured allow-lists, with no else branch, so a
link type matching no list leaves the initial empty mode string. -/
def classifyModes (bike car transit walk : List String) (lt : String) : String :=
  if lt ∈ bike then "b"
  else if lt ∈ car then "c"
  else if lt ∈ transit then "t"
  else if lt ∈ walk then "w"
  else ""

/-- Embedding of network.py lines 449-469 (the branch taken when the links
table has no modes column): when neither the configured link-type column nor
the link_type_name fallback exists the import aborts (line 451), otherwise
every row is classified through the allow-lists. -/
def inferModes (hasLinkTypeCol : Bool) (bike car transit walk : List String)
    (linkTypes : List String) : Except String (List String) :=
  if hasLinkTypeCol then
    Except.ok (linkTypes.map (classifyModes bike car transit walk))
  else
    Except.error "GMNS table does not have information about modes or link types."

/-- The Python string.ascii_letters scanned by the allocation fallback
(network.py line 413). -/
def asciiLetters : List Char :=
  "abcdefghijklmnopqrstuvwxyzABCDEFGHIJKLMNOPQRSTUVWXYZ".toList

/-- Embedding of the while loop of network.py lines 392-407: walk the
characters of the raw link-type name in order, trying the lower-cased form
then the upper-cased form of each against the codes already in use. -/
def tryChars (used : List Char) : List Char → Option Char
  | [] => none
  | ch :: rest =>
    if ch.toLower ∉ used then some ch.toLower
    else if ch.toUpper ∉ used then some ch.toUpper
    else tryChars used rest

/-- Embedding of the code allocation for one raw link-type name (network.py
lines 390-424): the per-character search, then the ascii_letters fallback
scan, then the all-letters-in-use error. -/
def allocCode (used : List Char) (name : String) : Except String Char :=
  match tryChars used name.toList with
  | some c => Except.ok c
  | none =>
    match asciiLetters.find? (fun c => decide (c ∉ used)) with
    | some c => Except.ok c
    | none =>
      Except.error "Error during creation of new link_type: all letters are currently in use."

/-- Embedding of the outer loop of network.py line 390: each distinct name
is allocated in turn, every allocated code being saved into the registry
before the next name is processed. -/
def allocAll : List Char → List String → Except String (List (Char × String))
  | _, [] => Except.ok []
  | used, n :: rest =>
    match allocCode used n with
    | Except.error msg => Except.error msg
    | Except.ok c =>
      match allocAll (used ++ [c]) rest with
      | Except.error msg => Except.error msg
      | Except.ok ps => Except.ok ((c, n) :: ps)

/-- Embedding of list(dict.fromkeys(link_types_list)) (network.py line 390):
the distinct values in first-occurrence order. -/
def firstKeys : List String → List String
  | [] => []
  | n :: rest => n :: firstKeys (rest.filter (fun s => decide (s ≠ n)))
termination_by l => l.length
decreasing_by
  simp only [List.length_cons]
  exact Nat.lt_succ_of_le (List.length_filter_le _ _)

/-- Link-type registry extension performed by one GMNS import: one code per
distinct raw link-type name, in first-occurrence order. -/
def create_from_gmns_link_types (used : List Char) (linkTypesList : List String) :
    Except String (List (Char × String)) :=
  allocAll used (firstKeys linkTypesList)

/- ## GraphSynthesizer: Network.build_graphs (network.py lines 555-610). -/

/-- Canonical link row as read back for graph building, restricted to the
numeric columns the synthesizer keeps plus the modes string (network.py
lines 596-601); the numeric payload beyond the identity columns is
represented by one cost column. -/
structure LinkRow where
  link_id : ℤ
  a_node : ℤ
  b_node : ℤ
  direction : ℤ
  modes : String
  cost : ℚ
deriving DecidableEq

/-- Embedding of the per-mode table of network.py lines 603-604: a full copy
of the link table in which every row whose modes string does not contain the
mode character has its b_node overwritten with its own a_node. -/
def perModeNet (m : Char) (data : List LinkRow) : List LinkRow :=
  data.map (fun r => if m ∈ r.modes.toList then r else { r with b_node := r.a_node })

/-- Embedding of the loop of network.py lines 602-610 acting on the
mode-to-graph map: each selected mode's entry is overwritten with the graph
freshly built from the per-mode table (the graph is represented by its
network table). -/
def build_graphs (data : List LinkRow) :
    List Char → (Char → Option (List LinkRow)) → Char → Option (List LinkRow)
  | [], graphs => graphs
  | m :: rest, graphs =>
    build_graphs data rest
      (fun q => if q = m then some (perModeNet m data) else graphs q)

/-- The five identity fields appended to a caller-supplied fields list
(network.py line 585). -/
def identityFields : List String := ["link_id", "a_node", "b_node", "direction", "modes"]

/-- Embedding of fields.extend([...]) (network.py line 585): the value of
the caller's list after the call. -/
def extendFields (fields : List String) : List String := fields ++ identityFields

/-- Embedding of all_fields = list(set(fields)) (network.py line 586): the
set of fields actually queried. -/
def allFields (fields : List String) : Finset String := (extendFields fields).toFinset

/- ## Helper lemmas -/

lemma nat_sqrt_one : Nat.sqrt 1 = 1 := by
  have h1 : 1 ≤ Nat.sqrt 1 := Nat.le_sqrt.mpr (by norm_num)
  have h2 : Nat.sqrt 1 < 2 := Nat.sqrt_lt.mpr (by norm_num)
  omega

lemma normDir_cases (d : ℤ) : normDir d = -1 ∨ normDir d = 0 ∨ normDir d = 1 := by
  by_cases h : d = 1 ∨ d = 0 ∨ d = -1
  · rw [normDir, if_pos h]; tauto
  · rw [normDir, if_neg h]; tauto

lemma gmnsFinal_snd_cases (l : List RawLink) :
    ∀ e ∈ gmnsFinal l, e.2 = -1 ∨ e.2 = 0 ∨ e.2 = 1 := by
  intro e he
  rw [gmnsFinal] at he
  obtain ⟨a, _, ha⟩ := List.mem_map.mp he
  rw [← ha]
  exact normDir_cases a.2

/- ## Claim theorems -/

/-- Claim C1 (code_bug evaluation): when the external place-name resolution
returns a None bounding box, create_from_osm raises a TypeError at the tuple
unpacking of line 178, before the None check of line 179 can warn and return
early. -/
theorem create_from_osm_place_none_raises (place_name : String) :
    create_from_osm_place place_name none =
      OsmOutcome.raised "TypeError: cannot unpack non-iterable NoneType object" := rfl

/-- Claim C10: build_graphs called with an explicit fields list appends the
five identity field names to the caller's list, so the list is exactly five
entries longer (in particular strictly longer), and the set of fields
actually queried is the deduplicated union of the supplied fields and the
identity fields. -/
theorem build_graphs_fields_extend (fields : List String) :
    (extendFields fields).length = fields.length + 5 ∧
    fields.length < (extendFields fields).length ∧
    allFields fields = fields.toFinset ∪ identityFields.toFinset := by
  refine ⟨?_, ?_, ?_⟩
  · simp [extendFields, identityFields]
  · simp only [extendFields, identityFields, List.length_append, List.length_cons,
      List.length_nil]
    omega
  · rw [allFields, extendFields, List.toFinset_append]

/-- Claim C7 (counterexample): with a links table that has a link-type column
but no modes column, a row whose link type "xyz" matches none of the
configured allow-lists does not make the import fail; it is silently assigned
the empty mode string. -/
theorem create_from_gmns_unmapped_type_counterexample :
    inferModes true ["cycleway"] ["primary"] ["rail"] ["footway"] ["xyz"] =
      Except.ok [""] := rfl

/-- Claim C7 (amended): in the no-modes-column branch of create_from_gmns the
only fatal error is raised when the link-type column (and its fallback) is
also absent; when a link-type column exists the branch always succeeds, and a
row whose link-type value matches none of the bicycle/car/transit/walk
allow-lists is assigned the empty mode string. -/
theorem create_from_gmns_unmapped_type (bike car transit walk : List String)
    (lts : List String) :
    inferModes false bike car transit walk lts =
      Except.error "GMNS table does not have information about modes or link types." ∧
    inferModes true bike car transit walk lts =
      Except.ok (lts.map (classifyModes bike car transit walk)) ∧
    ∀ lt, lt ∉ bike → lt ∉ car → lt ∉ transit → lt ∉ walk →
      classifyModes bike car transit walk lt = "" := by
  refine ⟨rfl, rfl, ?_⟩
  intro lt h1 h2 h3 h4
  simp [classifyModes, h1, h2, h3, h4]

/-- Claim C7 witness for the amended statement. -/
theorem create_from_gmns_unmapped_type_witness :
    classifyModes ["cycleway"] ["primary"] ["rail"] ["footway"] "residential" = "" :=
  (create_from_gmns_unmapped_type ["cycleway"] ["primary"] ["rail"] ["footway"] []).2.2
    "residential" (by decide) (by decide) (by decide) (by decide)

/-- Claim C2: for a valid bounding box whose approximated area is at most
max_query_area_size, the tiling step yields exactly one tile equal to the
input rectangle; at equality the grid branch runs with a 1-by-1 grid and
still reproduces the input rectangle. -/
theorem create_from_osm_tiles_small (west south east north area maxq : ℚ)
    (hw1 : -180 ≤ west) (hw2 : west ≤ 180) (he1 : -180 ≤ east) (he2 : east ≤ 180)
    (hs1 : -90 ≤ south) (hs2 : south ≤ 90) (hn1 : -90 ≤ north) (hn2 : north ≤ 90)
    (hmax : 0 < maxq) (harea : area ≤ maxq) :
    create_from_osm_tiles west south east north area maxq =
      [(west, south, east, north)] := by
  rcases lt_or_eq_of_le harea with hlt | heq
  · rw [create_from_osm_tiles, if_pos hlt]
  · have hne : ¬ area < maxq := by rw [heq]; exact lt_irrefl maxq
    have hdiv : area / maxq = 1 := by rw [heq]; exact div_self (ne_of_gt hmax)
    have hparts : partsOf area maxq = 1 := by
      simp [partsOf, hdiv]
    have hh : horizontalOf area maxq = 1 := by
      rw [horizontalOf, hparts, ceilSqrt, nat_sqrt_one]
      norm_num
    have hv : verticalOf area maxq = 1 := by
      rw [verticalOf, hparts, hh, ceilDivNat]
    rw [create_from_osm_tiles, if_neg hne, hh, hv]
    have c1 : west + ((0 : ℕ) : ℚ) * ((east - west) / ((1 : ℕ) : ℚ)) = west := by
      push_cast; ring
    have c2 : south + ((0 : ℕ) : ℚ) * ((north - south) / ((1 : ℕ) : ℚ)) = south := by
      push_cast; ring
    have c3 : west + (((0 : ℕ) : ℚ) + 1) * ((east - west) / ((1 : ℕ) : ℚ)) = east := by
      push_cast; ring
    have c4 : south + (((0 : ℕ) : ℚ) + 1) * ((north - south) / ((1 : ℕ) : ℚ)) = north := by
      push_cast; ring
    have hrange : List.range 1 = [0] := rfl
    simp only [mkTiles, hrange, List.flatMap_cons, List.flatMap_nil,
      List.map_cons, List.map_nil, List.append_nil, c1, c2, c3, c4]
    rw [max_eq_right hw1, max_eq_right hs1, min_eq_right he2, min_eq_right hn2]

/-- Claim C2 witness, exercising the area = max_query_area_size case. -/
theorem create_from_osm_tiles_small_witness :
    create_from_osm_tiles (-1) (-1) 1 1 1 1 = [((-1 : ℚ), (-1 : ℚ), (1 : ℚ), (1 : ℚ))] :=
  create_from_osm_tiles_small (-1) (-1) 1 1 1 1 (by norm_num) (by norm_num) (by norm_num)
    (by norm_num) (by norm_num) (by norm_num) (by norm_num) (by norm_num) (by norm_num)
    (by norm_num)

/-- Claim C5: every direction in the final canonical rows lies in
[-1, 0, 1]; positionally, the final list is the canonical list with each
direction passed through the fallback, so a value outside the set becomes 1
and a direction already forced to 0 by two-way detection stays 0. -/
theorem create_from_gmns_direction_normalized (l : List RawLink) :
    (∀ e ∈ gmnsFinal l, e.2 = -1 ∨ e.2 = 0 ∨ e.2 = 1) ∧
    (gmnsFinal l).length = (gmnsCanonical l).length ∧
    ∀ i (hi : i < (gmnsCanonical l).length) (hi2 : i < (gmnsFinal l).length),
      ((gmnsFinal l).get ⟨i, hi2⟩).1 = ((gmnsCanonical l).get ⟨i, hi⟩).1 ∧
      ((gmnsFinal l).get ⟨i, hi2⟩).2 = normDir ((gmnsCanonical l).get ⟨i, hi⟩).2 ∧
      (¬(((gmnsCanonical l).get ⟨i, hi⟩).2 = 1 ∨ ((gmnsCanonical l).get ⟨i, hi⟩).2 = 0 ∨
          ((gmnsCanonical l).get ⟨i, hi⟩).2 = -1) →
        ((gmnsFinal l).get ⟨i, hi2⟩).2 = 1) ∧
      (((gmnsCanonical l).get ⟨i, hi⟩).2 = 0 → ((gmnsFinal l).get ⟨i, hi2⟩).2 = 0) := by
  refine ⟨gmnsFinal_snd_cases l, by rw [gmnsFinal, List.length_map], ?_⟩
  intro i hi hi2
  have hget : (gmnsFinal l).get ⟨i, hi2⟩ =
      (((gmnsCanonical l).get ⟨i, hi⟩).1, normDir ((gmnsCanonical l).get ⟨i, hi⟩).2) := by
    simp only [gmnsFinal, List.get_eq_getElem, List.getElem_map]
  refine ⟨by rw [hget], by rw [hget], ?_, ?_⟩
  · intro hout
    rw [hget]
    exact if_neg hout
  · intro h0
    rw [hget, h0]
    rfl

/-- Claim C5 witness: a single raw row with direction value 7 ends with
direction 1. -/
theorem create_from_gmns_direction_normalized_witness :
    ((gmnsFinal [⟨1, 1, 2, 7, 0, 0, 0⟩]).get ⟨0, by decide⟩).2 = 1 :=
  ((create_from_gmns_direction_normalized [⟨1, 1, 2, 7, 0, 0, 0⟩]).2.2 0
    (by decide) (by decide)).2.2.1 (by decide)

/-- Claim C6: for one per-direction source column (speed, capacity or
lanes), each final canonical row's _ab slot holds the source value exactly
when the column exists and the direction is 1 or 0, and its _ba slot holds
the source value exactly when the column exists and the direction is -1 or
0; in every other case the slot is empty, and an absent column leaves every
slot of every row empty. -/
theorem create_from_gmns_field_slots (hasField : Bool) (value : RawLink → ℚ)
    (l : List RawLink) :
    (fieldSlots hasField value (gmnsFinal l)).length = (gmnsFinal l).length ∧
    ∀ i (hi : i < (gmnsFinal l).length)
      (hi2 : i < (fieldSlots hasField value (gmnsFinal l)).length),
      (fieldSlots hasField value (gmnsFinal l)).get ⟨i, hi2⟩ =
        ((if hasField = true ∧ (((gmnsFinal l).get ⟨i, hi⟩).2 = 1 ∨
              ((gmnsFinal l).get ⟨i, hi⟩).2 = 0)
          then some (value ((gmnsFinal l).get ⟨i, hi⟩).1) else none),
         (if hasField = true ∧ (((gmnsFinal l).get ⟨i, hi⟩).2 = -1 ∨
              ((gmnsFinal l).get ⟨i, hi⟩).2 = 0)
          then some (value ((gmnsFinal l).get ⟨i, hi⟩).1) else none)) := by
  refine ⟨by rw [fieldSlots, List.length_map], ?_⟩
  intro i hi hi2
  have hget : (fieldSlots hasField value (gmnsFinal l)).get ⟨i, hi2⟩ =
      (fun e : RawLink × ℤ =>
        if hasField then
          if e.2 = 1 then (some (value e.1), none)
          else if e.2 = -1 then (none, some (value e.1))
          else (some (value e.1), some (value e.1))
        else (none, none)) ((gmnsFinal l).get ⟨i, hi⟩) := by
    simp only [fieldSlots, List.get_eq_getElem, List.getElem_map]
  have hd := gmnsFinal_snd_cases l ((gmnsFinal l).get ⟨i, hi⟩) (List.get_mem _ _ _)
  rw [List.get_eq_getElem] at hd
  rw [hget]
  simp only [List.get_eq_getElem]
  rcases hd with h | h | h <;> cases hasField <;> simp [h]

/-- Claim C6 witness: direction 1 with an existing column fills only the
_ab slot with the source value. -/
theorem create_from_gmns_field_slots_witness :
    (fieldSlots true RawLink.speed (gmnsFinal [⟨10, 1, 2, 1, 5, 6, 7⟩])).get
        ⟨0, by decide⟩ = (some 5, none) :=
  ((create_from_gmns_field_slots true RawLink.speed [⟨10, 1, 2, 1, 5, 6, 7⟩]).2 0
    (by decide) (by decide)).trans (by decide)

lemma build_graphs_not_mem (data : List LinkRow) :
    ∀ (modes : List Char) (graphs : Char → Option (List LinkRow)) (m : Char),
      m ∉ modes → build_graphs data modes graphs m = graphs m := by
  intro modes
  induction modes with
  | nil => intro graphs m _; rfl
  | cons m0 rest ih =>
    intro graphs m hm
    have h1 : m ≠ m0 := fun e => hm (e ▸ List.mem_cons_self m0 rest)
    have h2 : m ∉ rest := fun e => hm (List.mem_cons_of_mem _ e)
    show build_graphs data rest _ m = graphs m
    rw [ih _ m h2]
    simp [h1]

lemma build_graphs_mem (data : List LinkRow) :
    ∀ (modes : List Char) (graphs : Char → Option (List LinkRow)) (m : Char),
      m ∈ modes → build_graphs data modes graphs m = some (perModeNet m data) := by
  intro modes
  induction modes with
  | nil => intro graphs m hm; cases hm
  | cons m0 rest ih =>
    intro graphs m hm
    by_cases hr : m ∈ rest
    · exact ih _ m hr
    · have he : m = m0 := by
        rcases List.mem_cons.mp hm with h | h
        · exact h
        · exact absurd h hr
      subst he
      show build_graphs data rest _ m = _
      rw [build_graphs_not_mem data rest _ m hr]
      simp

/-- Claim C9: the per-mode network table is the positional image of the
source table: same length, and at every index the row is unchanged when its
modes string contains the mode character, while otherwise only its b_node is
overwritten with its own a_node; the built graph is stored in the graphs map
under the mode key, replacing any prior entry, and unselected modes keep
their prior entries. -/
theorem build_graphs_per_mode (m : Char) (data : List LinkRow)
    (graphs : Char → Option (List LinkRow)) (modes : List Char) :
    (perModeNet m data).length = data.length ∧
    (∀ i (hi : i < data.length) (hi2 : i < (perModeNet m data).length),
      (m ∈ (data.get ⟨i, hi⟩).modes.toList →
        (perModeNet m data).get ⟨i, hi2⟩ = data.get ⟨i, hi⟩) ∧
      (m ∉ (data.get ⟨i, hi⟩).modes.toList →
        (perModeNet m data).get ⟨i, hi2⟩ =
          { data.get ⟨i, hi⟩ with b_node := (data.get ⟨i, hi⟩).a_node })) ∧
    (m ∈ modes → build_graphs data modes graphs m = some (perModeNet m data)) ∧
    (m ∉ modes → build_graphs data modes graphs m = graphs m) := by
  refine ⟨by rw [perModeNet, List.length_map], ?_, ?_, ?_⟩
  · intro i hi hi2
    have hget : (perModeNet m data).get ⟨i, hi2⟩ =
        (fun r : LinkRow =>
          if m ∈ r.modes.toList then r else { r with b_node := r.a_node })
          (data.get ⟨i, hi⟩) := by
      simp only [perModeNet, List.get_eq_getElem, List.getElem_map]
    constructor
    · intro hmem
      rw [hget]
      exact if_pos hmem
    · intro hmem
      rw [hget]
      exact if_neg hmem
  · exact build_graphs_mem data modes graphs m
  · exact build_graphs_not_mem data modes graphs m

/-- Claim C9 witness: a one-row table for mode c, stored under key c in an
initially empty graphs map. -/
theorem build_graphs_per_mode_witness :
    build_graphs [⟨1, 1, 2, 1, "c", 0⟩] ['c'] (fun _ => none) 'c' =
      some (perModeNet 'c' [⟨1, 1, 2, 1, "c", 0⟩]) :=
  (build_graphs_per_mode 'c' [⟨1, 1, 2, 1, "c", 0⟩] (fun _ => none) ['c']).2.2.1
    (by decide)


lemma tryChars_fresh (used : List Char) :
    ∀ (cs : List Char) (c : Char), tryChars used cs = some c → c ∉ used := by
  intro cs
  induction cs with
  | nil => intro c h; cases h
  | cons ch rest ih =>
    intro c h
    rw [tryChars] at h
    by_cases h1 : ch.toLower ∉ used
    · rw [if_pos h1] at h
      rw [← Option.some.inj h]
      exact h1
    · rw [if_neg h1] at h
      by_cases h2 : ch.toUpper ∉ used
      · rw [if_pos h2] at h
        rw [← Option.some.inj h]
        exact h2
      · rw [if_neg h2] at h
        exact ih c h

lemma tryChars_exhausted (used : List Char) :
    ∀ cs : List Char, (∀ ch ∈ cs, ch.toLower ∈ used ∧ ch.toUpper ∈ used) →
      tryChars used cs = none := by
  intro cs
  induction cs with
  | nil => intro _; rfl
  | cons ch rest ih =>
    intro h
    have hch := h ch (List.mem_cons_self ch rest)
    rw [tryChars, if_neg (not_not_intro hch.1), if_neg (not_not_intro hch.2)]
    exact ih (fun x hx => h x (List.mem_cons_of_mem _ hx))

lemma allocCode_fresh (used : List Char) (name : String) (c : Char)
    (h : allocCode used name = Except.ok c) : c ∉ used := by
  rw [allocCode] at h
  cases htc : tryChars used name.toList with
  | some c0 =>
    rw [htc] at h
    cases h
    exact tryChars_fresh used name.toList _ htc
  | none =>
    rw [htc] at h
    cases hf : asciiLetters.find? (fun x => decide (x ∉ used)) with
    | some c0 =>
      rw [hf] at h
      cases h
      have hdec := @List.find?_some Char (fun x => decide (x ∉ used)) c asciiLetters hf
      exact of_decide_eq_true hdec
    | none =>
      rw [hf] at h
      cases h

lemma allocAll_ok :
    ∀ (names : List String) (used : List Char) (ps : List (Char × String)),
      allocAll used names = Except.ok ps →
      ps.map Prod.snd = names ∧ (∀ q ∈ ps, q.1 ∉ used) ∧
      (ps.map Prod.fst).Pairwise (fun a b => a ≠ b) := by
  intro names
  induction names with
  | nil =>
    intro used ps h
    cases h
    simp
  | cons n rest ih =>
    intro used ps h
    rw [allocAll] at h
    split at h
    · cases h
    · rename_i c hc
      split at h
      · cases h
      · rename_i ps2 hr
        cases h
        obtain ⟨hsnd, hfresh, hpw⟩ := ih (used ++ [c]) ps2 hr
        refine ⟨by simp [hsnd], ?_, ?_⟩
        · intro q hq
          rcases List.mem_cons.mp hq with hq1 | hq2
          · rw [hq1]
            exact allocCode_fresh used n c hc
          · intro hu
            exact hfresh q hq2 (List.mem_append_left _ hu)
        · rw [List.map_cons, List.pairwise_cons]
          refine ⟨?_, hpw⟩
          intro x hx
          obtain ⟨q, hq, hqx⟩ := List.mem_map.mp hx
          intro he
          refine hfresh q hq ?_
          have hqc : q.1 = c := by rw [hqx, ← he]
          rw [hqc]
          exact List.mem_append_right _ (List.mem_singleton.mpr rfl)

/-- Claim C8: allocCode never returns a code already in use; when every
character form of the name and every ascii letter is in use it fails with
the allocation error; a successful import allocates exactly one code per
processed name, all pairwise distinct; and the name Arterial against an
empty registry is allocated the code a. -/
theorem create_from_gmns_link_type_codes :
    (∀ (used : List Char) (name : String) (c : Char),
      allocCode used name = Except.ok c → c ∉ used) ∧
    (∀ (used : List Char) (name : String),
      (∀ ch ∈ name.toList, ch.toLower ∈ used ∧ ch.toUpper ∈ used) →
      (∀ ch ∈ asciiLetters, ch ∈ used) →
      allocCode used name =
        Except.error
          "Error during creation of new link_type: all letters are currently in use.") ∧
    (∀ (used : List Char) (names : List String) (ps : List (Char × String)),
      allocAll used names = Except.ok ps →
      ps.map Prod.snd = names ∧ (ps.map Prod.fst).Pairwise (fun a b => a ≠ b)) ∧
    create_from_gmns_link_types [] ["Arterial"] = Except.ok [('a', "Arterial")] := by
  refine ⟨allocCode_fresh, ?_, ?_, ?_⟩
  · intro used name hname hall
    rw [allocCode, tryChars_exhausted used name.toList hname]
    have hf : asciiLetters.find? (fun x => decide (x ∉ used)) = none := by
      rw [List.find?_eq_none]
      intro x hx
      simp [hall x hx]
    rw [hf]
  · intro used names ps h
    obtain ⟨h1, _, h3⟩ := allocAll_ok names used ps h
    exact ⟨h1, h3⟩
  · have hfk : firstKeys ["Arterial"] = ["Arterial"] := by
      simp [firstKeys]
    rw [create_from_gmns_link_types, hfk]
    rfl

/-- Claim C8 witness: a freshly allocated code is not among the codes
already in use. -/
theorem create_from_gmns_link_type_codes_witness : ('b' : Char) ∉ (['a'] : List Char) :=
  create_from_gmns_link_type_codes.1 ['a'] "b" 'b' rfl

lemma ceilSqrt_spec (n : ℕ) (hn : 1 ≤ n) :
    n ≤ ceilSqrt n * ceilSqrt n ∧ (ceilSqrt n - 1) * (ceilSqrt n - 1) < n ∧
    1 ≤ ceilSqrt n := by
  have h1 : Nat.sqrt n * Nat.sqrt n ≤ n := by
    have := Nat.sqrt_le' n
    simpa [pow_two] using this
  have h2 : n < (Nat.sqrt n + 1) * (Nat.sqrt n + 1) := Nat.lt_succ_sqrt n
  have hs1 : 1 ≤ Nat.sqrt n := Nat.le_sqrt.mpr (by omega)
  rw [ceilSqrt]
  split_ifs with he
  · refine ⟨he.ge, ?_, hs1⟩
    obtain ⟨k, hk⟩ : ∃ k, Nat.sqrt n = k + 1 := ⟨Nat.sqrt n - 1, by omega⟩
    rw [hk] at he ⊢
    have : k * k < (k + 1) * (k + 1) := Nat.mul_self_lt_mul_self (by omega)
    simpa [he] using this
  · refine ⟨le_of_lt h2, ?_, by omega⟩
    have hlt : Nat.sqrt n * Nat.sqrt n < n := lt_of_le_of_ne h1 he
    simpa using hlt

lemma ceilDivNat_spec (p h : ℕ) (hh : 1 ≤ h) (hp : 1 ≤ p) :
    p ≤ h * ceilDivNat p h ∧ h * (ceilDivNat p h - 1) < p := by
  have hph : p + h - 1 = (p - 1) + h := by omega
  rw [ceilDivNat, hph, Nat.add_div_right _ (by omega : 0 < h)]
  have hd := Nat.div_add_mod (p - 1) h
  have hm : (p - 1) % h < h := Nat.mod_lt _ (by omega)
  constructor
  · rw [Nat.mul_succ]
    omega
  · rw [Nat.add_sub_cancel]
    omega

lemma partsOf_cast (area maxq : ℚ) (hmax : 0 < maxq) (harea : maxq < area) :
    ((partsOf area maxq : ℕ) : ℤ) = Int.ceil (area / maxq) ∧ 2 ≤ partsOf area maxq := by
  have h1 : (1 : ℚ) < area / maxq := (one_lt_div hmax).mpr harea
  have h2 : (1 : ℤ) < Int.ceil (area / maxq) := by
    rw [Int.lt_ceil]
    exact_mod_cast h1
  constructor
  · rw [partsOf]
    exact Int.toNat_of_nonneg (by omega)
  · rw [partsOf]
    omega

lemma exists_cell (d x a : ℚ) (hd : 0 ≤ d) :
    ∀ h : ℕ, 1 ≤ h → a ≤ x → x ≤ a + (h : ℚ) * d →
      ∃ i : ℕ, i < h ∧ a + (i : ℚ) * d ≤ x ∧ x ≤ a + ((i : ℚ) + 1) * d := by
  intro h
  induction h with
  | zero => intro h0; exact absurd h0 (by norm_num)
  | succ n ihn =>
    intro _ hax hxu
    by_cases hx : x ≤ a + (n : ℚ) * d
    · rcases Nat.eq_zero_or_pos n with h0 | hpos
      · subst h0
        refine ⟨0, by omega, by simpa using hax, ?_⟩
        have hxa : x ≤ a := by simpa using hx
        push_cast
        linarith
      · obtain ⟨i, hi, hc1, hc2⟩ := ihn hpos hax hx
        exact ⟨i, by omega, hc1, hc2⟩
    · push_neg at hx
      refine ⟨n, by omega, le_of_lt hx, ?_⟩
      push_cast at hxu ⊢
      linarith

lemma mkTiles_length (west south east north : ℚ) (h v : ℕ) :
    (mkTiles west south east north h v).length = h * v := by
  rw [mkTiles, List.length_flatMap]
  rw [show List.length ∘ (fun (i : ℕ) => (List.range v).map (fun (j : ℕ) =>
      (max (-180) (west + (i : ℚ) * ((east - west) / (h : ℚ))),
       max (-90) (south + (j : ℚ) * ((north - south) / (v : ℚ))),
       min 180 (west + ((i : ℚ) + 1) * ((east - west) / (h : ℚ))),
       min 90 (south + ((j : ℚ) + 1) * ((north - south) / (v : ℚ)))))) =
      fun (i : ℕ) => v from funext fun i => by
    simp [List.length_map, List.length_range]]
  rw [List.map_const', List.length_range, List.sum_replicate, smul_eq_mul]

lemma mkTiles_mem (west south east north : ℚ) (h v i j : ℕ) (hi : i < h) (hj : j < v) :
    (max (-180) (west + (i : ℚ) * ((east - west) / (h : ℚ))),
     max (-90) (south + (j : ℚ) * ((north - south) / (v : ℚ))),
     min 180 (west + ((i : ℚ) + 1) * ((east - west) / (h : ℚ))),
     min 90 (south + ((j : ℚ) + 1) * ((north - south) / (v : ℚ)))) ∈
      mkTiles west south east north h v := by
  rw [mkTiles, List.mem_flatMap]
  exact ⟨i, List.mem_range.mpr hi, List.mem_map.mpr ⟨j, List.mem_range.mpr hj, rfl⟩⟩

/-- Claim C3: when the approximated area exceeds max_query_area_size, the
tiling step computes parts as the ceiling of area over max_query_area_size,
horizontal as the ceiling of the square root of parts (characterized by its
bracketing squares), vertical as the ceiling of parts over horizontal
(characterized by its bracketing multiples, so horizontal times vertical is
at least parts), produces exactly horizontal times vertical tiles, and every
point of the original rectangle is covered by some tile. -/
theorem create_from_osm_tiles_split (west south east north area maxq : ℚ)
    (hw1 : -180 ≤ west) (hw2 : west ≤ 180) (he1 : -180 ≤ east) (he2 : east ≤ 180)
    (hs1 : -90 ≤ south) (hs2 : south ≤ 90) (hn1 : -90 ≤ north) (hn2 : north ≤ 90)
    (hwe : west ≤ east) (hsn : south ≤ north)
    (hmax : 0 < maxq) (harea : maxq < area) :
    ((partsOf area maxq : ℕ) : ℤ) = Int.ceil (area / maxq) ∧
    partsOf area maxq ≤ horizontalOf area maxq * horizontalOf area maxq ∧
    (horizontalOf area maxq - 1) * (horizontalOf area maxq - 1) < partsOf area maxq ∧
    partsOf area maxq ≤ horizontalOf area maxq * verticalOf area maxq ∧
    horizontalOf area maxq * (verticalOf area maxq - 1) < partsOf area maxq ∧
    (create_from_osm_tiles west south east north area maxq).length =
      horizontalOf area maxq * verticalOf area maxq ∧
    ∀ x y : ℚ, west ≤ x → x ≤ east → south ≤ y → y ≤ north →
      ∃ t ∈ create_from_osm_tiles west south east north area maxq,
        t.1 ≤ x ∧ x ≤ t.2.2.1 ∧ t.2.1 ≤ y ∧ y ≤ t.2.2.2 := by
  obtain ⟨hcast, hp2⟩ := partsOf_cast area maxq hmax harea
  have hp1 : 1 ≤ partsOf area maxq := by omega
  obtain ⟨hsq1, hsq2, hsq3⟩ := ceilSqrt_spec (partsOf area maxq) hp1
  have hsq1a : partsOf area maxq ≤ horizontalOf area maxq * horizontalOf area maxq := hsq1
  have hsq2a : (horizontalOf area maxq - 1) * (horizontalOf area maxq - 1) <
      partsOf area maxq := hsq2
  have hsq3a : 1 ≤ horizontalOf area maxq := hsq3
  obtain ⟨hv1, hv2⟩ := ceilDivNat_spec (partsOf area maxq) (horizontalOf area maxq) hsq3a hp1
  have hv1a : partsOf area maxq ≤ horizontalOf area maxq * verticalOf area maxq := hv1
  have hv2a : horizontalOf area maxq * (verticalOf area maxq - 1) < partsOf area maxq := hv2
  have hne : ¬ area < maxq := not_lt.mpr (le_of_lt harea)
  have htiles : create_from_osm_tiles west south east north area maxq =
      mkTiles west south east north (horizontalOf area maxq) (verticalOf area maxq) := by
    rw [create_from_osm_tiles, if_neg hne]
  have hv0 : 1 ≤ verticalOf area maxq := by
    rcases Nat.eq_zero_or_pos (verticalOf area maxq) with h0 | hpos
    · rw [h0, Nat.mul_zero] at hv1a
      omega
    · exact hpos
  refine ⟨hcast, hsq1a, hsq2a, hv1a, hv2a, ?_, ?_⟩
  · rw [htiles, mkTiles_length]
  · intro x y hx1 hx2 hy1 hy2
    have hhne : ((horizontalOf area maxq : ℕ) : ℚ) ≠ 0 :=
      Nat.cast_ne_zero.mpr (by omega)
    have hvne : ((verticalOf area maxq : ℕ) : ℚ) ≠ 0 :=
      Nat.cast_ne_zero.mpr (by omega)
    have hdx : (0 : ℚ) ≤ (east - west) / ((horizontalOf area maxq : ℕ) : ℚ) :=
      div_nonneg (by linarith) (Nat.cast_nonneg _)
    have hdy : (0 : ℚ) ≤ (north - south) / ((verticalOf area maxq : ℕ) : ℚ) :=
      div_nonneg (by linarith) (Nat.cast_nonneg _)
    have hxu : x ≤ west + ((horizontalOf area maxq : ℕ) : ℚ) *
        ((east - west) / ((horizontalOf area maxq : ℕ) : ℚ)) := by
      rw [mul_div_cancel₀ _ hhne]
      linarith
    have hyu : y ≤ south + ((verticalOf area maxq : ℕ) : ℚ) *
        ((north - south) / ((verticalOf area maxq : ℕ) : ℚ)) := by
      rw [mul_div_cancel₀ _ hvne]
      linarith
    obtain ⟨i, hi, hcx1, hcx2⟩ :=
      exists_cell ((east - west) / ((horizontalOf area maxq : ℕ) : ℚ)) x west hdx
        (horizontalOf area maxq) hsq3a hx1 hxu
    obtain ⟨j, hj, hcy1, hcy2⟩ :=
      exists_cell ((north - south) / ((verticalOf area maxq : ℕ) : ℚ)) y south hdy
        (verticalOf area maxq) hv0 hy1 hyu
    rw [htiles]
    refine ⟨_, mkTiles_mem west south east north _ _ i j hi hj, ?_, ?_, ?_, ?_⟩
    · exact max_le (by linarith) hcx1
    · exact le_min (by linarith) hcx2
    · exact max_le (by linarith) hcy1
    · exact le_min (by linarith) hcy2

lemma nat_sqrt_three : Nat.sqrt 3 = 1 := by
  have h1 : 1 ≤ Nat.sqrt 3 := Nat.le_sqrt.mpr (by norm_num)
  have h2 : Nat.sqrt 3 < 2 := Nat.sqrt_lt.mpr (by norm_num)
  omega

/-- Claim C3 witness: a unit square with area 2.4 times the maximum query
area is split into 4 tiles (parts = 3, horizontal = 2, vertical = 2). -/
theorem create_from_osm_tiles_split_witness :
    (create_from_osm_tiles 0 0 1 1 (12 / 5) 1).length = 4 := by
  have h := (create_from_osm_tiles_split 0 0 1 1 (12 / 5) 1 (by norm_num) (by norm_num)
    (by norm_num) (by norm_num) (by norm_num) (by norm_num) (by norm_num) (by norm_num)
    (by norm_num) (by norm_num) (by norm_num) (by norm_num)).2.2.2.2.2.1
  rw [h]
  have hp : partsOf (12 / 5 : ℚ) 1 = 3 := by
    have hc : Int.ceil ((12 / 5 : ℚ) / 1) = 3 := by
      rw [div_one, Int.ceil_eq_iff]
      constructor <;> norm_num
    rw [partsOf, hc]
    rfl
  have hh : horizontalOf (12 / 5 : ℚ) 1 = 2 := by
    rw [horizontalOf, hp, ceilSqrt, nat_sqrt_three]
    norm_num
  have hv : verticalOf (12 / 5 : ℚ) 1 = 2 := by
    rw [verticalOf, hp, hh]
    rfl
  rw [hh, hv]

lemma keepLast_sublist : ∀ l : List RawLink, (keepLast l).Sublist l := by
  intro l
  induction l with
  | nil => exact List.Sublist.refl []
  | cons r rest ih =>
    rw [keepLast]
    by_cases h : rest.any (samePair r) = true
    · rw [if_pos h]
      exact ih.cons r
    · rw [if_neg h]
      exact ih.cons₂ r

lemma mem_of_getLast?_gen {α : Type} : ∀ {t : List α} {m : α}, t.getLast? = some m → m ∈ t := by
  intro t
  induction t with
  | nil => intro m h; cases h
  | cons a t ih =>
    intro m h
    cases t with
    | nil =>
      rw [List.getLast?_singleton] at h
      cases h
      exact List.mem_singleton.mpr rfl
    | cons b u =>
      rw [List.getLast?_cons_cons] at h
      exact List.mem_cons_of_mem a (ih h)

lemma sorted_getLast_max : ∀ t : List RawLink, t.Pairwise linkIdLe →
    ∀ m, t.getLast? = some m → ∀ x ∈ t, x.link_id ≤ m.link_id := by
  intro t
  induction t with
  | nil => intro _ m h; cases h
  | cons a t ih =>
    intro hpw m hm x hx
    cases t with
    | nil =>
      rw [List.getLast?_singleton] at hm
      cases hm
      rcases List.mem_singleton.mp hx with rfl
      exact le_refl _
    | cons b u =>
      rw [List.getLast?_cons_cons] at hm
      rw [List.pairwise_cons] at hpw
      rcases List.mem_cons.mp hx with rfl | hx2
      · exact hpw.1 m (mem_of_getLast?_gen hm)
      · exact ih hpw.2 m hm x hx2

lemma getLast?_cons_ne_nil {α : Type} (a : α) {L : List α} (h : L ≠ []) :
    (a :: L).getLast? = L.getLast? := by
  cases L with
  | nil => exact absurd rfl h
  | cons b u => exact List.getLast?_cons_cons

lemma keepLast_filter (a b : ℤ) :
    ∀ s : List RawLink,
      (keepLast s).filter (pairPred a b) = ((s.filter (pairPred a b)).getLast?).toList := by
  intro s
  induction s with
  | nil => rfl
  | cons r rest ih =>
    rw [keepLast]
    by_cases hany : rest.any (samePair r) = true
    · rw [if_pos hany, List.filter_cons]
      by_cases hpr : pairPred a b r = true
      · rw [if_pos hpr]
        obtain ⟨s0, hs0mem, hs0⟩ := List.any_eq_true.mp hany
        have h1 := of_decide_eq_true hpr
        have h2 := of_decide_eq_true hs0
        have hps0 : pairPred a b s0 = true :=
          decide_eq_true ⟨h2.1.trans h1.1, h2.2.trans h1.2⟩
        have hne : rest.filter (pairPred a b) ≠ [] := by
          intro hnil
          rw [List.filter_eq_nil_iff] at hnil
          exact hnil s0 hs0mem hps0
        rw [getLast?_cons_ne_nil r hne]
        exact ih
      · rw [if_neg hpr]
        exact ih
    · rw [if_neg hany, List.filter_cons, List.filter_cons]
      by_cases hpr : pairPred a b r = true
      · rw [if_pos hpr, if_pos hpr]
        have h1 := of_decide_eq_true hpr
        have hnil : rest.filter (pairPred a b) = [] := by
          rw [List.filter_eq_nil_iff]
          intro x hx hpx
          have h2 := of_decide_eq_true hpx
          refine hany ?_
          refine List.any_eq_true.mpr ⟨x, hx, ?_⟩
          exact decide_eq_true ⟨h2.1.trans h1.1.symm, h2.2.trans h1.2.symm⟩
        have hkl : (keepLast rest).filter (pairPred a b) = [] := by
          have hsub := (keepLast_sublist rest).filter (pairPred a b)
          rw [hnil] at hsub
          exact List.sublist_nil.mp hsub
        rw [hkl, hnil]
        rfl
      · rw [if_neg hpr, if_neg hpr]
        exact ih

lemma linkId_inj : ∀ l : List RawLink, l.Pairwise (fun r s => r.link_id ≠ s.link_id) →
    ∀ x ∈ l, ∀ y ∈ l, x.link_id = y.link_id → x = y := by
  intro l
  induction l with
  | nil => intro _ x hx; cases hx
  | cons a t ih =>
    intro hpw x hx y hy hxy
    rw [List.pairwise_cons] at hpw
    rcases List.mem_cons.mp hx with rfl | hx2
    · rcases List.mem_cons.mp hy with rfl | hy2
      · rfl
      · exact absurd hxy (hpw.1 y hy2)
    · rcases List.mem_cons.mp hy with rfl | hy2
      · exact absurd hxy.symm (hpw.1 x hx2)
      · exact ih hpw.2 x hx2 y hy2 hxy

lemma filter_fst_map (q : RawLink → Bool) (g : RawLink → RawLink × ℤ)
    (hg : ∀ r, (g r).1 = r) :
    ∀ t : List RawLink, (t.map g).filter (fun e => q e.1) = (t.filter q).map g := by
  intro t
  induction t with
  | nil => rfl
  | cons r rest ih =>
    rw [List.map_cons, List.filter_cons, List.filter_cons, hg r]
    by_cases hq : q r = true
    · rw [if_pos hq, if_pos hq, List.map_cons, ih]
    · rw [if_neg hq, if_neg hq, ih]

lemma keepLast_sorted_spec (a b : ℤ) (t : List RawLink)
    (hne : t.filter (pairPred a b) ≠ []) :
    ∃ k, (keepLast (sortByLinkId t)).filter (pairPred a b) = [k] ∧
      k ∈ t.filter (pairPred a b) ∧
      ∀ x ∈ t.filter (pairPred a b), x.link_id ≤ k.link_id := by
  have hperm : ((sortByLinkId t).filter (pairPred a b)).Perm (t.filter (pairPred a b)) :=
    (List.perm_insertionSort linkIdLe t).filter _
  have hsorted : (sortByLinkId t).Pairwise linkIdLe := List.sorted_insertionSort linkIdLe t
  have hpf : ((sortByLinkId t).filter (pairPred a b)).Pairwise linkIdLe :=
    List.Pairwise.filter _ hsorted
  have hne2 : (sortByLinkId t).filter (pairPred a b) ≠ [] := by
    intro h0
    rw [h0] at hperm
    exact hne (List.perm_nil.mp hperm.symm)
  obtain ⟨k, hk⟩ : ∃ k, ((sortByLinkId t).filter (pairPred a b)).getLast? = some k := by
    cases hgl : ((sortByLinkId t).filter (pairPred a b)).getLast? with
    | none =>
      rw [List.getLast?_eq_none] at hgl
      exact absurd hgl hne2
    | some k => exact ⟨k, rfl⟩
  refine ⟨k, ?_, ?_, ?_⟩
  · rw [keepLast_filter a b (sortByLinkId t), hk]
    rfl
  · exact hperm.mem_iff.mp (mem_of_getLast?_gen hk)
  · intro x hx
    exact sorted_getLast_max _ hpf k hk x (hperm.mem_iff.mpr hx)


lemma twoWay_filter_eq (l : List RawLink) (a b : ℤ) (hcount : 2 ≤ countPair l a b) :
    (l.filter (twoWayPred l)).filter (pairPred a b) = l.filter (pairPred a b) := by
  rw [List.filter_filter]
  refine List.filter_congr ?_
  intro x _
  by_cases hxp : pairPred a b x = true
  · have hxab := of_decide_eq_true hxp
    have htwx : twoWayPred l x = true := by
      rw [twoWayPred]
      refine decide_eq_true ?_
      rw [hxab.1, hxab.2]
      exact hcount
    rw [hxp, htwx]
    rfl
  · have hxf : pairPred a b x = false := by
      revert hxp
      cases pairPred a b x <;> simp
    rw [hxf]
    simp

/-- Claim C4: under unique link ids, every ordered node pair occurring in at
least two raw rows keeps exactly one canonical row, the one with the highest
link_id in the group, with direction forced to 0; and every pair occurring in
exactly one raw row keeps that very row with the direction value it carries. -/
theorem create_from_gmns_twoway (l : List RawLink)
    (hinj : l.Pairwise (fun r s => r.link_id ≠ s.link_id)) (a b : ℤ) :
    (2 ≤ countPair l a b →
      ∃ k, k ∈ l ∧ k.from_node = a ∧ k.to_node = b ∧
        (∀ x ∈ l, x.from_node = a → x.to_node = b → x.link_id ≤ k.link_id) ∧
        pairEntries (gmnsCanonical l) a b = [(k, 0)]) ∧
    (countPair l a b = 1 →
      ∀ r ∈ l, r.from_node = a → r.to_node = b →
        pairEntries (gmnsCanonical l) a b = [(r, r.dir)]) := by
  constructor
  · intro hcount
    have hne : l.filter (pairPred a b) ≠ [] := by
      intro h0
      rw [countPair, h0] at hcount
      simp at hcount
    obtain ⟨k, hkfilter, hkmem, hkmax⟩ := keepLast_sorted_spec a b l hne
    have hkl : k ∈ l := List.mem_of_mem_filter hkmem
    have hkp : pairPred a b k = true := (List.mem_filter.mp hkmem).2
    have hkab := of_decide_eq_true hkp
    have htw : hasTwoWay l = true := by
      rw [hasTwoWay, List.any_eq_true]
      refine ⟨k, hkl, ?_⟩
      rw [twoWayPred]
      refine decide_eq_true ?_
      rw [hkab.1, hkab.2]
      exact hcount
    have hff := twoWay_filter_eq l a b hcount
    have hne2 : (l.filter (twoWayPred l)).filter (pairPred a b) ≠ [] := by
      rw [hff]
      exact hne
    obtain ⟨k2, hk2filter, hk2mem, hk2max⟩ :=
      keepLast_sorted_spec a b (l.filter (twoWayPred l)) hne2
    rw [hff] at hk2mem hk2max
    have hkeq : k = k2 := by
      have h1 := hkmax k2 hk2mem
      have h2 := hk2max k hkmem
      exact linkId_inj l hinj k hkl k2 (List.mem_of_mem_filter hk2mem) (le_antisymm h2 h1)
    have hmemtw : k.link_id ∈ twoWayLinks l := by
      rw [twoWayLinks]
      have hk2kept : k2 ∈ keepLast (sortByLinkId (l.filter (twoWayPred l))) := by
        have hmemf : k2 ∈
            (keepLast (sortByLinkId (l.filter (twoWayPred l)))).filter (pairPred a b) := by
          rw [hk2filter]
          exact List.mem_singleton.mpr rfl
        exact List.mem_of_mem_filter hmemf
      rw [hkeq]
      exact List.mem_map_of_mem _ hk2kept
    refine ⟨k, hkl, hkab.1, hkab.2, ?_, ?_⟩
    · intro x hx hxa hxb
      exact hkmax x (List.mem_filter.mpr ⟨hx, decide_eq_true ⟨hxa, hxb⟩⟩)
    · rw [gmnsCanonical, if_pos htw, pairEntries,
        filter_fst_map (pairPred a b) _ (fun x => rfl), hkfilter]
      simp [hmemtw]
  · intro hcount r hrl hra hrb
    have hrp : pairPred a b r = true := decide_eq_true ⟨hra, hrb⟩
    have hrf : r ∈ l.filter (pairPred a b) := List.mem_filter.mpr ⟨hrl, hrp⟩
    have hfilter1 : l.filter (pairPred a b) = [r] := by
      have hc1 : (l.filter (pairPred a b)).length = 1 := hcount
      obtain ⟨x, hx⟩ := List.length_eq_one.mp hc1
      rw [hx] at hrf ⊢
      rw [List.eq_of_mem_singleton hrf]
    by_cases htw : hasTwoWay l = true
    · obtain ⟨k, hkfilter, hkmem, hkmax⟩ := keepLast_sorted_spec a b l (by
        rw [hfilter1]
        exact List.cons_ne_nil r [])
      rw [hfilter1] at hkmem
      have hkr : k = r := List.eq_of_mem_singleton hkmem
      subst hkr
      have hnot : k.link_id ∉ twoWayLinks l := by
        intro hmem
        rw [twoWayLinks] at hmem
        obtain ⟨s, hs, hsid⟩ := List.mem_map.mp hmem
        have hs2 : s ∈ sortByLinkId (l.filter (twoWayPred l)) :=
          List.Sublist.mem hs (keepLast_sublist _)
        have hs3 : s ∈ l.filter (twoWayPred l) :=
          (List.perm_insertionSort linkIdLe _).mem_iff.mp hs2
        have hs4 : s ∈ l := List.mem_of_mem_filter hs3
        have hstw : twoWayPred l s = true := (List.mem_filter.mp hs3).2
        have hsk : s = k := linkId_inj l hinj s hs4 k hrl hsid
        rw [hsk] at hstw
        have hge := of_decide_eq_true hstw
        rw [hra, hrb] at hge
        rw [hcount] at hge
        exact absurd hge (by norm_num)
      rw [gmnsCanonical, if_pos htw, pairEntries,
        filter_fst_map (pairPred a b) _ (fun x => rfl), hkfilter]
      simp [hnot]
    · rw [gmnsCanonical, if_neg htw, pairEntries,
        filter_fst_map (pairPred a b) _ (fun x => rfl), hfilter1]
      rfl

/-- Claim C4 witness: the pair (3, 4) occurs in exactly one raw row, which
survives with its carried direction value 9. -/
theorem create_from_gmns_twoway_witness :
    pairEntries (gmnsCanonical [⟨10, 1, 2, 5, 0, 0, 0⟩, ⟨11, 1, 2, -1, 0, 0, 0⟩,
      ⟨7, 3, 4, 9, 0, 0, 0⟩]) 3 4 = [(⟨7, 3, 4, 9, 0, 0, 0⟩, 9)] :=
  (create_from_gmns_twoway
    [⟨10, 1, 2, 5, 0, 0, 0⟩, ⟨11, 1, 2, -1, 0, 0, 0⟩, ⟨7, 3, 4, 9, 0, 0, 0⟩]
    (by decide) 3 4).2 (by decide) ⟨7, 3, 4, 9, 0, 0, 0⟩ (by decide) (by decide) (by decide)
